import Mathlib

/-!
Shallow embedding of the parsing core of `src/import-iis-sites.py`
(class `Importer`): the listing parser `_parse_iis_sites` (lines 215-252),
the binding decomposer `_parse_bindings` (lines 255-285) and the
attribute merger `_compile_sites_objects` (lines 288-312).

Python strings are modelled as `List Char`; `_parse_iis_sites` receives
the already decoded text (the spec's external interface hands the core a
single decoded string).  The two regular expressions of the source,

  row pattern (line 231):      `^(\S+)\s+(.+)\s+\x7b(.+)\x7d\s*$`
  binding pattern (line 263):  `^(\S+)\s(.+):([0-9]+):(\S+)$`

are modelled by a small backtracking matcher over token lists that
implements Python `re.search` semantics for these anchored patterns:
greedy quantifiers with backtracking (longest attempt first), `.`
matching any character but `'\n'`, `$` matching at the end of the string
or before a final `'\n'`, and a leading `^` restricting the search to
position 0.  The class `\s` is modelled by the six ASCII whitespace
characters (the source only ever meets ASCII output of the remote
command).
-/

/-- ASCII model of Python's `\s` and of the characters removed by
`str.strip()`. -/
def isPySpace (c : Char) : Bool :=
  c = ' ' || c = '\t' || c = '\n' || c = '\r' || c = '\x0b' || c = '\x0c'

/-- The class `\S`. -/
def isNonSpaceC (c : Char) : Bool := !isPySpace c

/-- The class `.` (any character except a newline). -/
def isDotC (c : Char) : Bool := c != '\n'

/-- The class `[0-9]`. -/
def isDigitC (c : Char) : Bool := decide ('0' ≤ c ∧ c ≤ '9')

/-- Length of the maximal prefix of `s` whose characters all satisfy
`cls`: how much a greedy `cls+` / `cls*` consumes before backtracking. -/
def runLen (cls : Char → Bool) : List Char → Nat
  | [] => 0
  | c :: s => if cls c then runLen cls s + 1 else 0

/-- One token of an anchored Python regular expression: a literal
character, exactly one character of a class (`\s`), a greedy `+` or `*`
over a class (`cap` marks a capturing group), or the anchor `$`. -/
inductive Tok
  | lit (c : Char)
  | one (cls : Char → Bool)
  | plus (cls : Char → Bool) (cap : Bool)
  | star (cls : Char → Bool) (cap : Bool)
  | dollar

/-- Greedy backtracking loop for `cls+`: try to consume `k` characters
for `k = m, m-1, ..., 1`, continuing with `next` on the rest; the first
success wins. -/
def tryAll (next : List Char → Option (List (List Char))) (cap : Bool)
    (s : List Char) : Nat → Option (List (List Char))
  | 0 => none
  | k + 1 =>
    match next (s.drop (k + 1)) with
    | some gs => some (if cap then s.take (k + 1) :: gs else gs)
    | none => tryAll next cap s k

/-- Greedy backtracking loop for `cls*`: as `tryAll`, but consuming zero
characters is tried last. -/
def tryAllStar (next : List Char → Option (List (List Char))) (cap : Bool)
    (s : List Char) : Nat → Option (List (List Char))
  | 0 => (next s).map (fun gs => if cap then ([] : List Char) :: gs else gs)
  | k + 1 =>
    match next (s.drop (k + 1)) with
    | some gs => some (if cap then s.take (k + 1) :: gs else gs)
    | none => tryAllStar next cap s k

/-- Fuel-indexed backtracking matcher; a fuel of `toks.length + 1` is
always sufficient because each token consumes exactly one unit.  Returns the
list of captured groups of the leftmost-greedy match of the whole token
list, or `none`. -/
def matchToksF : Nat → List Tok → List Char → Option (List (List Char))
  | 0, _, _ => none
  | _ + 1, [], _ => some []
  | f + 1, Tok.dollar :: rest, s =>
    if s = [] ∨ s = ['\n'] then matchToksF f rest s else none
  | f + 1, Tok.lit c :: rest, s =>
    match s with
    | [] => none
    | a :: s2 => if a = c then matchToksF f rest s2 else none
  | f + 1, Tok.one cls :: rest, s =>
    match s with
    | [] => none
    | a :: s2 => if cls a then matchToksF f rest s2 else none
  | f + 1, Tok.plus cls cap :: rest, s =>
    tryAll (matchToksF f rest) cap s (runLen cls s)
  | f + 1, Tok.star cls cap :: rest, s =>
    tryAllStar (matchToksF f rest) cap s (runLen cls s)

/-- Match an anchored token pattern against a whole string. -/
def matchToks (toks : List Tok) (s : List Char) : Option (List (List Char)) :=
  matchToksF (toks.length + 1) toks s

/-- `^(\S+)\s+(.+)\s+\x7b(.+)\x7d\s*$` — the row pattern of
`_parse_iis_sites`, line 231 of the source. -/
def rowToks : List Tok :=
  [Tok.plus isNonSpaceC true, Tok.plus isPySpace false, Tok.plus isDotC true,
   Tok.plus isPySpace false, Tok.lit '{', Tok.plus isDotC true, Tok.lit '}',
   Tok.star isPySpace false, Tok.dollar]

/-- `^(\S+)\s(.+):([0-9]+):(\S+)$` — the binding pattern of
`_parse_bindings`, line 263 of the source. -/
def bindingToks : List Tok :=
  [Tok.plus isNonSpaceC true, Tok.one isPySpace, Tok.plus isDotC true,
   Tok.lit ':', Tok.plus isDigitC true, Tok.lit ':', Tok.plus isNonSpaceC true,
   Tok.dollar]

/-- `re.split('\\r\\n', input)` (line 219): split on each occurrence of
the two-character sequence CR LF, scanning left to right. -/
def splitCRLF : List Char → List (List Char)
  | [] => [[]]
  | [c] => [[c]]
  | c1 :: c2 :: rest =>
    if c1 = '\r' ∧ c2 = '\n' then [] :: splitCRLF rest
    else
      match splitCRLF (c2 :: rest) with
      | [] => [[c1]]
      | p :: ps => (c1 :: p) :: ps

/-- `re.split(',', input)` (line 259): split on each comma. -/
def splitComma : List Char → List (List Char)
  | [] => [[]]
  | c :: rest =>
    if c = ',' then [] :: splitComma rest
    else
      match splitComma rest with
      | [] => [[c]]
      | p :: ps => (c :: p) :: ps

/-- `str.strip()` (line 226): remove leading and trailing whitespace. -/
def pyStrip (s : List Char) : List Char :=
  ((s.dropWhile isPySpace).reverse.dropWhile isPySpace).reverse

/-- Python `dict` lookup used for the override map (`in` test and
subscript, lines 300-301), modelled on association lists. -/
def dictLookup (k : List Char) : List (List Char × γ) → Option γ
  | [] => none
  | (k2, v) :: rest => if k = k2 then some v else dictLookup k rest

/-- Numeric value of a digit string (used only to state claims about the
`port` field, which the source keeps as text). -/
def digitsVal (s : List Char) : Nat :=
  s.foldl (fun n c => 10 * n + (c.toNat - 48)) 0

/-- The dict built for one binding (lines 275-280). -/
structure Binding where
  type : List Char
  ip_address : List Char
  port : List Char
  host_name : List Char
deriving DecidableEq

/-- The dict built for one site (lines 243-247).  The parser does not
put an `attributes` key into the dict; the merger adds one later, hence
the `Option` (`none` = key absent).  `β` is the type of the arbitrary
override values supplied by the configuration loader. -/
structure Site (β : Type) where
  name : List Char
  state : List Char
  bindings : List Binding
  attributes : Option (List (List Char × β))
deriving DecidableEq

/-- An attribute-override map: site name to arbitrary key/value dict. -/
def OvrMap (β : Type) : Type := List (List Char × List (List Char × β))

/-- One iteration of the binding loop of `_parse_bindings`
(lines 260-283): match the fragment, and on any failure (the bare
`except: continue` around the `group` calls) yield nothing. -/
def parseBinding (frag : List Char) : Option Binding :=
  match matchToks bindingToks frag with
  | some [t, ip, p, h] =>
    some { type := t, ip_address := ip, port := p, host_name := h }
  | _ => none

/-- `_parse_bindings` (lines 255-285): split on commas, decompose each
fragment, silently discard fragments that fail to match. -/
def _parse_bindings (input : List Char) : List Binding :=
  (splitComma input).filterMap parseBinding

/-- Row Extractor: the anchored search and the three `group` calls of
`_parse_iis_sites` (lines 231-235). -/
def extractRow (row : List Char) : Option (List Char × List Char × List Char) :=
  match matchToks rowToks row with
  | some [name, state, bindings] => some (name, state, bindings)
  | _ => none

/-- One iteration of the row loop of `_parse_iis_sites` (lines 220-250):
skip rows equal to the empty string, strip the row, extract, parse the
bindings, and on any match failure (the bare `except: continue`) yield
nothing. -/
def parseRowToSite {β : Type} (row : List Char) : Option (Site β) :=
  if row = [] then none
  else
    match extractRow (pyStrip row) with
    | some (name, state, bindings) =>
      some { name := name, state := state,
             bindings := _parse_bindings bindings, attributes := none }
    | none => none

/-- `_parse_iis_sites` (lines 215-252) on the decoded text: split on CR
LF, process each row, keep the successfully parsed sites in row order. -/
def _parse_iis_sites {β : Type} (input : List Char) : List (Site β) :=
  (splitCRLF input).filterMap parseRowToSite

/-- The body of the site loop of `_compile_sites_objects`
(lines 294-309): look the site name up in the override map; set the
`attributes` key to the entry if present and to an empty dict otherwise. -/
def compileStep {β : Type} (site_attributes : OvrMap β) (site : Site β) : Site β :=
  { site with
    attributes := some (match dictLookup site.name site_attributes with
                        | some a => a
                        | none => []) }

/-- `_compile_sites_objects` (lines 288-312): the final list of site
objects, one per input site, in input order. -/
def _compile_sites_objects {β : Type} (sites : List (Site β))
    (site_attributes : OvrMap β) : List (Site β) :=
  sites.map (compileStep site_attributes)

/-- State-passing embedding of `_compile_sites_objects`: the Python loop
executes `site['attributes'] = attributes` on each dict of the caller's
`sites` list and appends the same object to `objects`, so after the call
the caller's list holds the mutated records and the returned list holds
those same records.  The first component is the final state (the
caller's site list and the override map, which the body only ever
reads), the second the return value. -/
def compileSitesWithState {β : Type} (sites : List (Site β))
    (site_attributes : OvrMap β) :
    (List (Site β) × OvrMap β) × List (Site β) :=
  ((sites.map (compileStep site_attributes), site_attributes),
   sites.map (compileStep site_attributes))


/-- The character classes of the capturing groups of a pattern, in
order. -/
def capSpecs : List Tok → List (Char → Bool)
  | [] => []
  | Tok.plus cls cap :: r => if cap then cls :: capSpecs r else capSpecs r
  | Tok.star cls cap :: r => if cap then cls :: capSpecs r else capSpecs r
  | Tok.lit _ :: r => capSpecs r
  | Tok.one _ :: r => capSpecs r
  | Tok.dollar :: r => capSpecs r

/-- A row contributes a site exactly when it is not the empty string and
its stripped form is matched by the row pattern. -/
def validRowB (row : List Char) : Bool :=
  !row.isEmpty && (matchToks rowToks (pyStrip row)).isSome

/-! ### Exception-explicit model of the core (error-propagation claim) -/

/-- The Python exceptions the core can raise internally. -/
inductive PyErr
  | attributeError
  | indexError
  | keyError
deriving DecidableEq

/-- `matches.group(i)` (1-based): raises `AttributeError` when the match
is `None` (`NoneType` has no `group`) and `IndexError` when the group
number is out of range. -/
def pyGroup (m : Option (List (List Char))) (i : Nat) :
    Except PyErr (List Char) :=
  match m with
  | none => Except.error PyErr.attributeError
  | some gs =>
    match gs.get? (i - 1) with
    | some g => Except.ok g
    | none => Except.error PyErr.indexError

/-- The body of the `try` of the binding loop (lines 263-280); errors
propagate to the caller. -/
def parseBindingTry (frag : List Char) : Except PyErr Binding := do
  let m := matchToks bindingToks frag
  let t ← pyGroup m 1
  let ip ← pyGroup m 2
  let p ← pyGroup m 3
  let h ← pyGroup m 4
  Except.ok { type := t, ip_address := ip, port := p, host_name := h }

/-- One turn of the binding loop with its `try/except: continue`: a
raised error drops the fragment. -/
def bindingStepE (acc : List Binding) (frag : List Char) : List Binding :=
  match parseBindingTry frag with
  | Except.ok b => acc ++ [b]
  | Except.error _ => acc

/-- `_parse_bindings` with the exception flow explicit. -/
def _parse_bindingsE (input : List Char) : List Binding :=
  (splitComma input).foldl bindingStepE []

/-- The body of the `try` of the row loop (lines 230-248); errors
propagate to the caller. -/
def parseRowTry {β : Type} (row : List Char) : Except PyErr (Site β) := do
  let m := matchToks rowToks row
  let name ← pyGroup m 1
  let state ← pyGroup m 2
  let bindings ← pyGroup m 3
  Except.ok { name := name, state := state,
              bindings := _parse_bindingsE bindings, attributes := none }

/-- One turn of the row loop: the empty-string guard, then the `try`
whose handler drops the row. -/
def rowStepE {β : Type} (acc : List (Site β)) (row : List Char) :
    List (Site β) :=
  if row = [] then acc
  else
    match parseRowTry (pyStrip row) with
    | Except.ok site => acc ++ [site]
    | Except.error _ => acc

/-- `_parse_iis_sites` with the exception flow explicit: outside the
per-row `try` no statement can raise, and the handler turns every raised
error into a dropped row, so the function always returns `ok`. -/
def _parse_iis_sitesE {β : Type} (input : List Char) :
    Except PyErr (List (Site β)) :=
  Except.ok ((splitCRLF input).foldl rowStepE [])

/-- `site_attributes[site_name]`: raises `KeyError` when the key is
absent. -/
def pySubscript {γ : Type} (m : List (List Char × γ)) (k : List Char) :
    Except PyErr γ :=
  match dictLookup k m with
  | some v => Except.ok v
  | none => Except.error PyErr.keyError

/-- One turn of the site loop of `_compile_sites_objects` with the dict
subscript's possible `KeyError` explicit: the `in` guard (line 300)
decides between the subscript and the empty dict. -/
def compileStepE {β : Type} (site_attributes : OvrMap β)
    (acc : List (Site β)) (site : Site β) : Except PyErr (List (Site β)) := do
  let attributes ←
    if (dictLookup site.name site_attributes).isSome then
      pySubscript site_attributes site.name
    else
      Except.ok []
  Except.ok (acc ++ [{ site with attributes := some attributes }])

/-- `_compile_sites_objects` with the exception flow explicit. -/
def _compile_sites_objectsE {β : Type} (sites : List (Site β))
    (site_attributes : OvrMap β) : Except PyErr (List (Site β)) :=
  sites.foldlM (compileStepE site_attributes) []

-- Sanity checks of the regex semantics on the spec's concrete scenarios.
example : extractRow ("site1  Started  {x}".toList)
    = some ("site1".toList, "Started ".toList, "x".toList) := by decide

example : parseBinding ("ftp 10.0.0.1:21:ftp.local".toList)
    = some { type := "ftp".toList, ip_address := "10.0.0.1".toList,
             port := "21".toList, host_name := "ftp.local".toList } := by decide

example : parseBinding (" https 10.0.0.1:443:secure.local".toList) = none := by
  decide

example : parseBinding ("".toList) = none := by decide

example : extractRow ("site1  Started  {}".toList) = none := by decide

example : splitCRLF ("a\r\nb".toList) = ["a".toList, "b".toList] := by decide

example : pyStrip ("  a b  ".toList) = "a b".toList := by decide

/-! ### Elementary properties of `runLen` -/

theorem runLen_le (cls : Char → Bool) : ∀ s : List Char, runLen cls s ≤ s.length
  | [] => Nat.le_refl 0
  | c :: s => by
    simp only [runLen]
    split
    · exact Nat.succ_le_succ (runLen_le cls s)
    · exact Nat.zero_le _

theorem runLen_cons (cls : Char → Bool) (c : Char) (s : List Char) :
    runLen cls (c :: s) = if cls c then runLen cls s + 1 else 0 := rfl

theorem runLen_eq_length {cls : Char → Bool} {s : List Char}
    (h : ∀ c ∈ s, cls c = true) : runLen cls s = s.length := by
  induction s with
  | nil => rfl
  | cons c t ih =>
    have hc := h c (by simp)
    simp [runLen, hc, ih (fun x hx => h x (by simp [hx]))]

theorem runLen_append_left {cls : Char → Bool} {u v : List Char}
    (h : ∀ c ∈ u, cls c = true) :
    runLen cls (u ++ v) = u.length + runLen cls v := by
  induction u with
  | nil => simp
  | cons c t ih =>
    have hc := h c (by simp)
    have iht := ih (fun x hx => h x (by simp [hx]))
    rw [List.cons_append, runLen_cons, hc, iht, List.length_cons]
    simp
    omega

theorem runLen_cons_false {cls : Char → Bool} {c : Char} {s : List Char}
    (h : cls c = false) : runLen cls (c :: s) = 0 := by
  simp [runLen, h]

theorem mem_take_runLen {cls : Char → Bool} :
    ∀ {s : List Char} {k : Nat}, k ≤ runLen cls s → ∀ c ∈ s.take k, cls c = true := by
  intro s
  induction s with
  | nil => intro k hk c hc; simp at hc
  | cons a t ih =>
    intro k hk c hc
    cases k with
    | zero => simp at hc
    | succ k2 =>
      by_cases ha : cls a
      · rw [List.take_succ_cons] at hc
        rcases List.mem_cons.mp hc with rfl | hc2
        · exact ha
        · have : runLen cls (a :: t) = runLen cls t + 1 := by simp [runLen, ha]
          exact ih (by omega) c hc2
      · rw [runLen_cons_false (by simpa using ha)] at hk
        omega

/-! ### The greedy loops `tryAll` and `tryAllStar` -/

theorem tryAll_none {next : List Char → Option (List (List Char))} {c : Bool}
    {s : List Char} :
    ∀ {m : Nat}, (∀ k, 1 ≤ k → k ≤ m → next (s.drop k) = none) →
      tryAll next c s m = none := by
  intro m
  induction m with
  | zero => intro _; rfl
  | succ k ih =>
    intro h
    simp only [tryAll, h (k + 1) (by omega) (by omega)]
    exact ih (fun j h1 h2 => h j h1 (by omega))

theorem tryAll_some {next : List Char → Option (List (List Char))} {c : Bool}
    {s : List Char} {gs : List (List Char)} {i : Nat} :
    ∀ {m : Nat}, 1 ≤ i → i ≤ m → next (s.drop i) = some gs →
      (∀ k, i < k → k ≤ m → next (s.drop k) = none) →
      tryAll next c s m = some (if c then s.take i :: gs else gs) := by
  intro m
  induction m with
  | zero => intro h1 h2 _ _; omega
  | succ k ih =>
    intro h1 h2 h3 h4
    by_cases hk : i = k + 1
    · subst hk
      simp only [tryAll, h3]
    · simp only [tryAll, h4 (k + 1) (by omega) (by omega)]
      exact ih h1 (by omega) h3 (fun j hj1 hj2 => h4 j hj1 (by omega))

theorem tryAll_eq_some {next : List Char → Option (List (List Char))} {c : Bool}
    {s : List Char} {gs : List (List Char)} :
    ∀ {m : Nat}, tryAll next c s m = some gs →
      ∃ k gs2, 1 ≤ k ∧ k ≤ m ∧ next (s.drop k) = some gs2 ∧
        gs = (if c then s.take k :: gs2 else gs2) := by
  intro m
  induction m with
  | zero => intro h; simp [tryAll] at h
  | succ k ih =>
    intro h
    simp only [tryAll] at h
    cases hnext : next (s.drop (k + 1)) with
    | some gs2 =>
      rw [hnext] at h
      exact ⟨k + 1, gs2, by omega, by omega, hnext, (Option.some_inj.mp h).symm⟩
    | none =>
      rw [hnext] at h
      obtain ⟨j, gs2, h1, h2, h3, h4⟩ := ih h
      exact ⟨j, gs2, h1, by omega, h3, h4⟩

theorem tryAllStar_some {next : List Char → Option (List (List Char))} {c : Bool}
    {s : List Char} {gs : List (List Char)} {i : Nat} :
    ∀ {m : Nat}, i ≤ m → next (s.drop i) = some gs →
      (∀ k, i < k → k ≤ m → next (s.drop k) = none) →
      tryAllStar next c s m = some (if c then s.take i :: gs else gs) := by
  intro m
  induction m with
  | zero =>
    intro h2 h3 _
    have hk0 : i = 0 := by omega
    subst hk0
    simp only [List.drop_zero] at h3
    simp [tryAllStar, h3]
  | succ k ih =>
    intro h2 h3 h4
    by_cases hk : i = k + 1
    · subst hk
      simp only [tryAllStar, h3]
    · simp only [tryAllStar, h4 (k + 1) (by omega) (by omega)]
      exact ih (by omega) h3 (fun j hj1 hj2 => h4 j hj1 (by omega))

theorem tryAllStar_eq_some {next : List Char → Option (List (List Char))} {c : Bool}
    {s : List Char} {gs : List (List Char)} :
    ∀ {m : Nat}, tryAllStar next c s m = some gs →
      ∃ k gs2, k ≤ m ∧ next (s.drop k) = some gs2 ∧
        gs = (if c then s.take k :: gs2 else gs2) := by
  intro m
  induction m with
  | zero =>
    intro h
    simp only [tryAllStar] at h
    cases hnext : next s with
    | some gs2 =>
      rw [hnext] at h
      simp only [Option.map_some'] at h
      exact ⟨0, gs2, Nat.le_refl 0, by simpa using hnext,
        by simpa using (Option.some_inj.mp h).symm⟩
    | none => rw [hnext] at h; simp at h
  | succ k ih =>
    intro h
    simp only [tryAllStar] at h
    cases hnext : next (s.drop (k + 1)) with
    | some gs2 =>
      rw [hnext] at h
      exact ⟨k + 1, gs2, Nat.le_refl _, hnext, (Option.some_inj.mp h).symm⟩
    | none =>
      rw [hnext] at h
      obtain ⟨j, gs2, h1, h2, h3⟩ := ih h
      exact ⟨j, gs2, by omega, h2, h3⟩

/-! ### Failure lemmas for the matcher, for every amount of fuel -/

theorem lit_head_fail {f : Nat} {c : Char} {r : List Tok} {t : List Char}
    (h : t.head? ≠ some c) : matchToksF f (Tok.lit c :: r) t = none := by
  cases f with
  | zero => rfl
  | succ f2 =>
    cases t with
    | nil => rfl
    | cons a t2 =>
      have hac : ¬(a = c) := by
        intro he
        exact h (by simp [he])
      simp only [matchToksF, if_neg hac]

theorem suffix_drop_cons {t : List Char} {c : Char} {Y : List Char}
    (h : t <:+ c :: Y) {k : Nat} (hk : 1 ≤ k) : t.drop k <:+ Y := by
  rcases List.suffix_cons_iff.mp h with rfl | h2
  · cases k with
    | zero => omega
    | succ k2 =>
      rw [List.drop_succ_cons]
      exact List.drop_suffix k2 Y
  · exact (List.drop_suffix k t).trans h2

theorem noLit_fail {c : Char} {X : List Char} (hX : ∀ a ∈ X, a ≠ c) :
    ∀ {f : Nat} {r : List Tok} {t : List Char}, t <:+ X →
      matchToksF f (Tok.lit c :: r) t = none := by
  intro f r t ht
  apply lit_head_fail
  cases t with
  | nil => simp
  | cons a t2 =>
    have ha : a ∈ X := ht.subset (by simp)
    simp only [List.head?_cons, ne_eq, Option.some_inj]
    exact hX a ha

theorem spBrace_fail {Y : List Char} (hY : '{' ∉ Y) :
    ∀ {f : Nat} {r : List Tok} {t : List Char}, t <:+ ('{' :: Y) →
      matchToksF f (Tok.plus isPySpace false :: Tok.lit '{' :: r) t = none := by
  intro f r t ht
  cases f with
  | zero => rfl
  | succ f2 =>
    simp only [matchToksF]
    apply tryAll_none
    intro k hk1 _
    exact noLit_fail (fun a ha hac => by subst hac; exact hY ha)
      (suffix_drop_cons ht hk1)

/-! ### Shape of the captured groups -/

/-- Any successful match produces one group per capturing token; a group
captured by a `+` over `cls` is non-empty and all its characters satisfy
`cls` (no capturing `*` may occur in the pattern). -/
theorem matchToksF_caps :
    ∀ {toks : List Tok} {f : Nat} {s : List Char} {gs : List (List Char)},
      (∀ cls, Tok.star cls true ∉ toks) →
      matchToksF f toks s = some gs →
      List.Forall₂ (fun cls (g : List Char) => g ≠ [] ∧ ∀ c ∈ g, cls c = true)
        (capSpecs toks) gs := by
  intro toks
  induction toks with
  | nil =>
    intro f s gs _ h
    cases f with
    | zero => simp [matchToksF] at h
    | succ f2 =>
      simp only [matchToksF, Option.some_inj] at h
      subst h
      exact List.Forall₂.nil
  | cons tok r ih =>
    intro f s gs hstar h
    cases f with
    | zero => simp [matchToksF] at h
    | succ f2 =>
      have hstar2 : ∀ cls, Tok.star cls true ∉ r :=
        fun cls hmem => hstar cls (List.mem_cons_of_mem _ hmem)
      cases tok with
      | dollar =>
        simp only [matchToksF] at h
        split at h
        · exact ih hstar2 h
        · exact absurd h (by simp)
      | lit c =>
        cases s with
        | nil => simp [matchToksF] at h
        | cons a s2 =>
          simp only [matchToksF] at h
          split at h
          · exact ih hstar2 h
          · exact absurd h (by simp)
      | one cls =>
        cases s with
        | nil => simp [matchToksF] at h
        | cons a s2 =>
          simp only [matchToksF] at h
          split at h
          · exact ih hstar2 h
          · exact absurd h (by simp)
      | plus cls c =>
        simp only [matchToksF] at h
        obtain ⟨k, gs2, hk1, hk2, hnext, rfl⟩ := tryAll_eq_some h
        have hsub := ih hstar2 hnext
        cases c with
        | true =>
          simp only [capSpecs, if_pos]
          refine List.Forall₂.cons ⟨?_, mem_take_runLen hk2⟩ hsub
          have hlen : (s.take k).length = k := by
            rw [List.length_take]
            have := runLen_le cls s
            omega
          intro hnil
          rw [hnil] at hlen
          simp at hlen
          omega
        | false =>
          have hcs : capSpecs (Tok.plus cls false :: r) = capSpecs r := rfl
          rw [hcs]
          exact hsub
      | star cls c =>
        cases c with
        | true => exact absurd (List.mem_cons_self _ _) (hstar cls)
        | false =>
          simp only [matchToksF] at h
          obtain ⟨k, gs2, hk2, hnext, rfl⟩ := tryAllStar_eq_some h
          have hcs : capSpecs (Tok.star cls false :: r) = capSpecs r := rfl
          rw [hcs]
          exact ih hstar2 hnext

/-- A successful row match has exactly three groups: a non-empty
whitespace-free name, a non-empty state, a non-empty bindings text. -/
theorem rowToks_caps {s : List Char} {gs : List (List Char)}
    (h : matchToks rowToks s = some gs) :
    ∃ g1 g2 g3, gs = [g1, g2, g3] ∧
      (g1 ≠ [] ∧ ∀ c ∈ g1, isNonSpaceC c = true) ∧
      (g2 ≠ [] ∧ ∀ c ∈ g2, isDotC c = true) ∧
      (g3 ≠ [] ∧ ∀ c ∈ g3, isDotC c = true) := by
  have hstar : ∀ cls, Tok.star cls true ∉ rowToks := by
    intro cls hmem
    simp [rowToks] at hmem
  have hf := matchToksF_caps hstar h
  have hcs : capSpecs rowToks = [isNonSpaceC, isDotC, isDotC] := rfl
  rw [hcs] at hf
  cases hf with
  | cons h1 hf2 =>
    cases hf2 with
    | cons h2 hf3 =>
      cases hf3 with
      | cons h3 hf4 =>
        cases hf4
        exact ⟨_, _, _, rfl, h1, h2, h3⟩

/-- A successful binding match has exactly four groups. -/
theorem bindingToks_caps {s : List Char} {gs : List (List Char)}
    (h : matchToks bindingToks s = some gs) :
    ∃ g1 g2 g3 g4, gs = [g1, g2, g3, g4] ∧
      (g1 ≠ [] ∧ ∀ c ∈ g1, isNonSpaceC c = true) ∧
      (g2 ≠ [] ∧ ∀ c ∈ g2, isDotC c = true) ∧
      (g3 ≠ [] ∧ ∀ c ∈ g3, isDigitC c = true) ∧
      (g4 ≠ [] ∧ ∀ c ∈ g4, isNonSpaceC c = true) := by
  have hstar : ∀ cls, Tok.star cls true ∉ bindingToks := by
    intro cls hmem
    simp [bindingToks] at hmem
  have hf := matchToksF_caps hstar h
  have hcs : capSpecs bindingToks = [isNonSpaceC, isDotC, isDigitC, isNonSpaceC] := rfl
  rw [hcs] at hf
  cases hf with
  | cons h1 hf2 =>
    cases hf2 with
    | cons h2 hf3 =>
      cases hf3 with
      | cons h3 hf4 =>
        cases hf4 with
        | cons h4 hf5 =>
          cases hf5
          exact ⟨_, _, _, _, rfl, h1, h2, h3, h4⟩

/-! ### Properties of the splitters and of `pyStrip` -/

theorem splitCRLF_crlf (t : List Char) :
    splitCRLF ('\r' :: '\n' :: t) = [] :: splitCRLF t := rfl

theorem splitCRLF_cons2 (c1 c2 : Char) (rest : List Char) :
    splitCRLF (c1 :: c2 :: rest)
      = if c1 = '\r' ∧ c2 = '\n' then [] :: splitCRLF rest
        else match splitCRLF (c2 :: rest) with
          | [] => [[c1]]
          | p :: ps => (c1 :: p) :: ps := rfl

theorem splitCRLF_cons_ne {c1 c2 : Char} {rest : List Char}
    (h : ¬(c1 = '\r' ∧ c2 = '\n')) {p : List Char} {ps : List (List Char)}
    (heq : splitCRLF (c2 :: rest) = p :: ps) :
    splitCRLF (c1 :: c2 :: rest) = (c1 :: p) :: ps := by
  rw [splitCRLF_cons2, if_neg h, heq]

theorem splitCRLF_ne_nil : ∀ s : List Char, splitCRLF s ≠ [] := by
  intro s
  induction s using splitCRLF.induct with
  | case1 => simp [splitCRLF]
  | case2 c => simp [splitCRLF]
  | case3 c1 c2 rest h ih =>
    obtain ⟨rfl, rfl⟩ := h
    rw [splitCRLF_crlf]
    simp
  | case4 c1 c2 rest h heq ih => exact (ih heq).elim
  | case5 c1 c2 rest h p ps heq ih =>
    rw [splitCRLF_cons_ne h heq]
    simp

theorem splitCRLF_append (a b : List Char) :
    splitCRLF (a ++ '\r' :: '\n' :: b) = splitCRLF a ++ splitCRLF b := by
  induction a using splitCRLF.induct with
  | case1 => simp [splitCRLF_crlf, splitCRLF]
  | case2 c =>
    have hcond : ¬(c = '\r' ∧ '\r' = '\n') := by simp
    show splitCRLF (c :: '\r' :: '\n' :: b) = splitCRLF [c] ++ splitCRLF b
    rw [splitCRLF_cons_ne hcond (splitCRLF_crlf b)]
    rfl
  | case3 c1 c2 rest h ih =>
    obtain ⟨rfl, rfl⟩ := h
    show splitCRLF ('\r' :: '\n' :: (rest ++ '\r' :: '\n' :: b))
        = splitCRLF ('\r' :: '\n' :: rest) ++ splitCRLF b
    rw [splitCRLF_crlf, splitCRLF_crlf, ih]
    simp
  | case4 c1 c2 rest h heq ih => exact (splitCRLF_ne_nil _ heq).elim
  | case5 c1 c2 rest h p ps heq ih =>
    show splitCRLF (c1 :: c2 :: (rest ++ '\r' :: '\n' :: b))
        = splitCRLF (c1 :: c2 :: rest) ++ splitCRLF b
    have ih2 : splitCRLF (c2 :: (rest ++ '\r' :: '\n' :: b))
        = p :: (ps ++ splitCRLF b) := by
      rw [← List.cons_append, ih, heq]
      rfl
    rw [splitCRLF_cons_ne h ih2, splitCRLF_cons_ne h heq]
    rfl

theorem pyStrip_nil : pyStrip [] = [] := rfl

/-- A string whose first and last characters are not whitespace is left
unchanged by `strip()`. -/
theorem pyStrip_eq_self {s : List Char}
    (h1 : ∀ c, s.head? = some c → isPySpace c = false)
    (h2 : ∀ c, s.getLast? = some c → isPySpace c = false) : pyStrip s = s := by
  unfold pyStrip
  have hd : s.dropWhile isPySpace = s := by
    cases s with
    | nil => rfl
    | cons a t => simp [List.dropWhile_cons, h1 a rfl]
  rw [hd]
  cases hs : s.reverse with
  | nil =>
    have hnil : s = [] := by simpa using congrArg List.reverse hs
    simp [hnil]
  | cons a t =>
    have hlast : s.getLast? = some a := by
      rw [List.getLast?_eq_head?_reverse, hs]
      rfl
    simp only [List.dropWhile_cons, h2 a hlast, Bool.false_eq_true, if_false]
    rw [← hs, List.reverse_reverse]

/-! ### Generic list lemmas -/

theorem filterMap_filter_of_none {α β : Type _} {l : List α} {f : α → Option β}
    {p : α → Bool} (h : ∀ r ∈ l, p r = false → f r = none) :
    l.filterMap f = (l.filter p).filterMap f := by
  induction l with
  | nil => rfl
  | cons a t ih =>
    have iht := ih (fun r hr hpr => h r (List.mem_cons_of_mem a hr) hpr)
    by_cases hp : p a
    · rw [List.filter_cons_of_pos hp, List.filterMap_cons, List.filterMap_cons, iht]
    · have hfa : f a = none := h a (List.mem_cons_self a t) (by simpa using hp)
      rw [List.filter_cons_of_neg (by simpa using hp), List.filterMap_cons, hfa, iht]

theorem length_filterMap_eq_countP {α β : Type _} (f : α → Option β) (l : List α) :
    (l.filterMap f).length = l.countP (fun a => (f a).isSome) := by
  induction l with
  | nil => rfl
  | cons a t ih =>
    rw [List.filterMap_cons, List.countP_cons]
    cases hfa : f a <;> simp [hfa, ih]

/-! ### Characterisation of one turn of the row loop -/

theorem parseRowToSite_isSome (β : Type) (row : List Char) :
    (parseRowToSite (β := β) row).isSome = validRowB row := by
  unfold parseRowToSite validRowB
  by_cases hrow : row = []
  · subst hrow; simp
  · rw [if_neg hrow]
    have hne : row.isEmpty = false := by
      cases row with
      | nil => exact absurd rfl hrow
      | cons a t => rfl
    cases hm : matchToks rowToks (pyStrip row) with
    | none =>
      have hex : extractRow (pyStrip row) = none := by
        unfold extractRow
        rw [hm]
      simp [hex, hne, hm]
    | some gs =>
      obtain ⟨g1, g2, g3, rfl, _, _, _⟩ := rowToks_caps hm
      have hex : extractRow (pyStrip row) = some (g1, g2, g3) := by
        unfold extractRow
        rw [hm]
      simp [hex, hne, hm]

theorem parseRowToSite_of_strip_nil {β : Type} {row : List Char}
    (h : pyStrip row = []) : parseRowToSite (β := β) row = none := by
  unfold parseRowToSite
  by_cases hrow : row = []
  · rw [if_pos hrow]
  · rw [if_neg hrow, h]
    rfl

theorem _parse_iis_sites_eq_filter (β : Type) (input : List Char) :
    _parse_iis_sites (β := β) input
      = ((splitCRLF input).filter (fun r => !(pyStrip r).isEmpty)).filterMap
          parseRowToSite := by
  unfold _parse_iis_sites
  apply filterMap_filter_of_none
  intro r _ hpr
  have hnil : pyStrip r = [] := by
    cases hps : pyStrip r with
    | nil => rfl
    | cons a t => rw [hps] at hpr; simp at hpr
  exact parseRowToSite_of_strip_nil hnil

theorem _parse_iis_sites_length (β : Type) (input : List Char) :
    (_parse_iis_sites (β := β) input).length = (splitCRLF input).countP validRowB := by
  unfold _parse_iis_sites
  rw [length_filterMap_eq_countP]
  induction splitCRLF input with
  | nil => rfl
  | cons r rows ih =>
    rw [List.countP_cons, List.countP_cons, ih, parseRowToSite_isSome β r]

/-! ### Unfolding equations of the matcher and small class facts -/

theorem matchToksF_nil_eq (f : Nat) (s : List Char) :
    matchToksF (f + 1) [] s = some [] := rfl

theorem matchToksF_dollar_eq (f : Nat) (rest : List Tok) (s : List Char) :
    matchToksF (f + 1) (Tok.dollar :: rest) s
      = if s = [] ∨ s = ['\n'] then matchToksF f rest s else none := rfl

theorem matchToksF_lit_cons_eq (f : Nat) (c : Char) (rest : List Tok)
    (a : Char) (s2 : List Char) :
    matchToksF (f + 1) (Tok.lit c :: rest) (a :: s2)
      = if a = c then matchToksF f rest s2 else none := rfl

theorem matchToksF_one_cons_eq (f : Nat) (cls : Char → Bool) (rest : List Tok)
    (a : Char) (s2 : List Char) :
    matchToksF (f + 1) (Tok.one cls :: rest) (a :: s2)
      = if cls a then matchToksF f rest s2 else none := rfl

theorem matchToksF_plus_eq (f : Nat) (cls : Char → Bool) (cap : Bool)
    (rest : List Tok) (s : List Char) :
    matchToksF (f + 1) (Tok.plus cls cap :: rest) s
      = tryAll (matchToksF f rest) cap s (runLen cls s) := rfl

theorem matchToksF_star_eq (f : Nat) (cls : Char → Bool) (cap : Bool)
    (rest : List Tok) (s : List Char) :
    matchToksF (f + 1) (Tok.star cls cap :: rest) s
      = tryAllStar (matchToksF f rest) cap s (runLen cls s) := rfl

theorem drop_suffix_drop {s : List Char} {k j : Nat} (h : k ≤ j) :
    s.drop j <:+ s.drop k := by
  have he : s.drop j = (s.drop k).drop (j - k) := by
    rw [List.drop_drop]
    congr 1
    omega
  rw [he]
  exact List.drop_suffix _ _

theorem nonsp_true {c : Char} (h : isPySpace c = false) : isNonSpaceC c = true := by
  simp [isNonSpaceC, h]

theorem nonsp_false {c : Char} (h : isPySpace c = true) : isNonSpaceC c = false := by
  simp [isNonSpaceC, h]

theorem dot_true {c : Char} (h : c ≠ '\n') : isDotC c = true := by
  simp [isDotC, h]

theorem length_pos_of_ne_nil {α : Type _} {l : List α} (h : l ≠ []) :
    1 ≤ l.length := by
  cases l with
  | nil => exact absurd rfl h
  | cons a t => simp

/-- Leftmost-greedy behaviour of the row pattern on a well-formed row
`<name><ws1><mid><wsF><w>\x7b<b>\x7d<ws3>`: the name group is the leading
token, the state group is everything up to (but not including) the last
whitespace character before the opening brace — so it keeps `wsF`, all
but one character of the whitespace run separating the state text from
the brace — and the bindings group is the brace content. -/
theorem matchRow_well_formed
    {name ws1 mid wsF b ws3 : List Char} {w : Char}
    (hname : name ≠ []) (hnameC : ∀ c ∈ name, isPySpace c = false)
    (hws1 : ws1 ≠ []) (hws1C : ∀ c ∈ ws1, isPySpace c = true)
    (hmid : mid ≠ []) (hmidN : ∀ c ∈ mid, c ≠ '\n')
    (hmidh : ∀ c, mid.head? = some c → isPySpace c = false)
    (hwsFC : ∀ c ∈ wsF, isPySpace c = true) (hwsFN : ∀ c ∈ wsF, c ≠ '\n')
    (hw : isPySpace w = true)
    (hb : b ≠ []) (hbN : ∀ c ∈ b, c ≠ '\n') (hbB : ∀ c ∈ b, c ≠ '{')
    (hws3C : ∀ c ∈ ws3, isPySpace c = true) :
    matchToks rowToks
        (name ++ ws1 ++ mid ++ wsF ++ w :: '{' :: b ++ '}' :: ws3)
      = some [name, mid ++ wsF, b] := by
  have hdollar : matchToksF 2 [Tok.dollar] ([] : List Char) = some [] := rfl
  have hstar : matchToksF 3 [Tok.star isPySpace false, Tok.dollar] ws3
      = some [] := by
    rw [matchToksF_star_eq, runLen_eq_length hws3C]
    have h3 : matchToksF 2 [Tok.dollar] (ws3.drop ws3.length) = some [] := by
      rw [List.drop_length]
      exact hdollar
    have hres := tryAllStar_some (c := false) (i := ws3.length)
      (m := ws3.length) le_rfl h3
      (fun k hk1 hk2 => absurd (Nat.lt_of_lt_of_le hk1 hk2) (Nat.lt_irrefl _))
    simpa using hres
  have hclose : matchToksF 4 [Tok.lit '}', Tok.star isPySpace false, Tok.dollar]
      ('}' :: ws3) = some [] := by
    rw [matchToksF_lit_cons_eq, if_pos rfl]
    exact hstar
  have hbindings : matchToksF 5
      [Tok.plus isDotC true, Tok.lit '}', Tok.star isPySpace false, Tok.dollar]
      (b ++ '}' :: ws3) = some [b] := by
    rw [matchToksF_plus_eq]
    have h3 : matchToksF 4 [Tok.lit '}', Tok.star isPySpace false, Tok.dollar]
        ((b ++ '}' :: ws3).drop b.length) = some [] := by
      rw [List.drop_left]
      exact hclose
    have h4 : ∀ k, b.length < k → k ≤ runLen isDotC (b ++ '}' :: ws3) →
        matchToksF 4 [Tok.lit '}', Tok.star isPySpace false, Tok.dollar]
          ((b ++ '}' :: ws3).drop k) = none := by
      intro k hk1 _
      have he : (b ++ '}' :: ws3).drop (b.length + 1) = ws3 := by
        rw [List.drop_append 1]
        rfl
      have hsub := drop_suffix_drop (s := b ++ '}' :: ws3)
        (k := b.length + 1) (j := k) (by omega)
      rw [he] at hsub
      refine noLit_fail (fun a ha hac => ?_) hsub
      have hsp := hws3C a ha
      rw [hac] at hsp
      exact absurd hsp (by decide)
    have hm : b.length ≤ runLen isDotC (b ++ '}' :: ws3) := by
      rw [runLen_append_left (fun c hc => dot_true (hbN c hc))]
      omega
    have hres := tryAll_some (c := true) (i := b.length)
      (length_pos_of_ne_nil hb) hm h3 h4
    rw [hres, List.take_left]
    simp
  have hopen : matchToksF 6 [Tok.lit '{', Tok.plus isDotC true, Tok.lit '}',
      Tok.star isPySpace false, Tok.dollar] ('{' :: (b ++ '}' :: ws3))
      = some [b] := by
    rw [matchToksF_lit_cons_eq, if_pos rfl]
    exact hbindings
  have hsp2 : matchToksF 7 [Tok.plus isPySpace false, Tok.lit '{',
      Tok.plus isDotC true, Tok.lit '}', Tok.star isPySpace false, Tok.dollar]
      (w :: '{' :: (b ++ '}' :: ws3)) = some [b] := by
    rw [matchToksF_plus_eq]
    have hrl : runLen isPySpace (w :: '{' :: (b ++ '}' :: ws3)) = 1 := by
      rw [runLen_cons, hw, if_pos rfl, runLen_cons_false (by decide)]
    rw [hrl]
    have h3 : matchToksF 6 [Tok.lit '{', Tok.plus isDotC true, Tok.lit '}',
        Tok.star isPySpace false, Tok.dollar]
        ((w :: '{' :: (b ++ '}' :: ws3)).drop 1) = some [b] := by
      rw [List.drop_one, List.tail_cons]
      exact hopen
    have hres := tryAll_some (c := false) (i := 1) (m := 1) le_rfl le_rfl h3
      (fun k hk1 hk2 => absurd (Nat.lt_of_lt_of_le hk1 hk2) (Nat.lt_irrefl _))
    simpa using hres
  have hstate : matchToksF 8 [Tok.plus isDotC true, Tok.plus isPySpace false,
      Tok.lit '{', Tok.plus isDotC true, Tok.lit '}', Tok.star isPySpace false,
      Tok.dollar] ((mid ++ wsF) ++ (w :: '{' :: (b ++ '}' :: ws3)))
      = some [mid ++ wsF, b] := by
    rw [matchToksF_plus_eq]
    have h3 : matchToksF 7 [Tok.plus isPySpace false, Tok.lit '{',
        Tok.plus isDotC true, Tok.lit '}', Tok.star isPySpace false, Tok.dollar]
        (((mid ++ wsF) ++ (w :: '{' :: (b ++ '}' :: ws3))).drop (mid ++ wsF).length)
        = some [b] := by
      rw [List.drop_left]
      exact hsp2
    have h4 : ∀ k, (mid ++ wsF).length < k →
        k ≤ runLen isDotC ((mid ++ wsF) ++ (w :: '{' :: (b ++ '}' :: ws3))) →
        matchToksF 7 [Tok.plus isPySpace false, Tok.lit '{',
          Tok.plus isDotC true, Tok.lit '}', Tok.star isPySpace false, Tok.dollar]
          (((mid ++ wsF) ++ (w :: '{' :: (b ++ '}' :: ws3))).drop k) = none := by
      intro k hk1 _
      have he : ((mid ++ wsF) ++ (w :: '{' :: (b ++ '}' :: ws3))).drop
          ((mid ++ wsF).length + 1) = '{' :: (b ++ '}' :: ws3) := by
        rw [List.drop_append 1]
        rfl
      have hsub := drop_suffix_drop (s := (mid ++ wsF) ++ (w :: '{' :: (b ++ '}' :: ws3)))
        (k := (mid ++ wsF).length + 1) (j := k) (by omega)
      rw [he] at hsub
      have hnb : '{' ∉ b ++ '}' :: ws3 := by
        intro hmem
        rcases List.mem_append.mp hmem with hmb | hmc
        · exact hbB '{' hmb rfl
        · rcases List.mem_cons.mp hmc with he2 | hm3
          · exact absurd he2 (by decide)
          · have hsp := hws3C '{' hm3
            exact absurd hsp (by decide)
      exact spBrace_fail hnb hsub
    have hm : (mid ++ wsF).length
        ≤ runLen isDotC ((mid ++ wsF) ++ (w :: '{' :: (b ++ '}' :: ws3))) := by
      rw [runLen_append_left (fun c hc => ?_)]
      · omega
      · rcases List.mem_append.mp hc with hcm | hcf
        · exact dot_true (hmidN c hcm)
        · exact dot_true (hwsFN c hcf)
    have hk1 : 1 ≤ (mid ++ wsF).length := by
      have := length_pos_of_ne_nil hmid
      rw [List.length_append]
      omega
    have hres := tryAll_some (c := true) (i := (mid ++ wsF).length)
      hk1 hm h3 h4
    rw [hres, List.take_left]
    simp
  have hsp1 : matchToksF 9 [Tok.plus isPySpace false, Tok.plus isDotC true,
      Tok.plus isPySpace false, Tok.lit '{', Tok.plus isDotC true, Tok.lit '}',
      Tok.star isPySpace false, Tok.dollar]
      (ws1 ++ ((mid ++ wsF) ++ (w :: '{' :: (b ++ '}' :: ws3))))
      = some [mid ++ wsF, b] := by
    rw [matchToksF_plus_eq]
    have hrl : runLen isPySpace
        (ws1 ++ ((mid ++ wsF) ++ (w :: '{' :: (b ++ '}' :: ws3)))) = ws1.length := by
      rw [runLen_append_left hws1C]
      obtain ⟨m0, mt, rfl⟩ := List.exists_cons_of_ne_nil hmid
      have hz : runLen isPySpace (((m0 :: mt) ++ wsF)
          ++ (w :: '{' :: (b ++ '}' :: ws3))) = 0 := by
        rw [List.cons_append, List.cons_append]
        exact runLen_cons_false (hmidh m0 rfl)
      rw [hz]
      omega
    rw [hrl]
    have h3 : matchToksF 8 [Tok.plus isDotC true, Tok.plus isPySpace false,
        Tok.lit '{', Tok.plus isDotC true, Tok.lit '}', Tok.star isPySpace false,
        Tok.dollar]
        ((ws1 ++ ((mid ++ wsF) ++ (w :: '{' :: (b ++ '}' :: ws3)))).drop ws1.length)
        = some [mid ++ wsF, b] := by
      rw [List.drop_left]
      exact hstate
    have hres := tryAll_some (c := false) (i := ws1.length)
      (m := ws1.length) (length_pos_of_ne_nil hws1) le_rfl h3
      (fun k hk1 hk2 => absurd (Nat.lt_of_lt_of_le hk1 hk2) (Nat.lt_irrefl _))
    simpa using hres
  have hassoc : name ++ ws1 ++ mid ++ wsF ++ w :: '{' :: b ++ '}' :: ws3
      = name ++ (ws1 ++ ((mid ++ wsF) ++ (w :: '{' :: (b ++ '}' :: ws3)))) := by
    simp
  rw [hassoc]
  show matchToksF 10 rowToks
      (name ++ (ws1 ++ ((mid ++ wsF) ++ (w :: '{' :: (b ++ '}' :: ws3)))))
    = some [name, mid ++ wsF, b]
  rw [show (10 : Nat) = 9 + 1 from rfl,
    show rowToks = Tok.plus isNonSpaceC true :: [Tok.plus isPySpace false,
      Tok.plus isDotC true, Tok.plus isPySpace false, Tok.lit '{',
      Tok.plus isDotC true, Tok.lit '}', Tok.star isPySpace false,
      Tok.dollar] from rfl,
    matchToksF_plus_eq]
  have hrl : runLen isNonSpaceC
      (name ++ (ws1 ++ ((mid ++ wsF) ++ (w :: '{' :: (b ++ '}' :: ws3)))))
      = name.length := by
    rw [runLen_append_left (fun c hc => nonsp_true (hnameC c hc))]
    obtain ⟨w0, wt, rfl⟩ := List.exists_cons_of_ne_nil hws1
    have hz : runLen isNonSpaceC ((w0 :: wt)
        ++ ((mid ++ wsF) ++ (w :: '{' :: (b ++ '}' :: ws3)))) = 0 := by
      rw [List.cons_append]
      exact runLen_cons_false (nonsp_false (hws1C w0 (by simp)))
    rw [hz]
    omega
  rw [hrl]
  have h3 : matchToksF 9 [Tok.plus isPySpace false, Tok.plus isDotC true,
      Tok.plus isPySpace false, Tok.lit '{', Tok.plus isDotC true, Tok.lit '}',
      Tok.star isPySpace false, Tok.dollar]
      ((name ++ (ws1 ++ ((mid ++ wsF) ++ (w :: '{' :: (b ++ '}' :: ws3))))).drop
        name.length) = some [mid ++ wsF, b] := by
    rw [List.drop_left]
    exact hsp1
  have hres := tryAll_some (c := true) (i := name.length)
    (m := name.length) (length_pos_of_ne_nil hname) le_rfl h3
    (fun k hk1 hk2 => absurd (Nat.lt_of_lt_of_le hk1 hk2) (Nat.lt_irrefl _))
  rw [hres, List.take_left]
  simp

/-- After the first colon of a well-formed fragment there is no further
position at which `:[0-9]+:\S+$` could start: every proper suffix of
`digs ++ ':' :: host` fails against the tail of the binding pattern. -/
theorem bindTail_fail {digs host : List Char}
    (hdigsC : ∀ c ∈ digs, isDigitC c = true) (hhostCol : ∀ c ∈ host, c ≠ ':') :
    ∀ (f : Nat) (t : List Char), t <:+ digs ++ ':' :: host →
      matchToksF f [Tok.lit ':', Tok.plus isDigitC true, Tok.lit ':',
        Tok.plus isNonSpaceC true, Tok.dollar] t = none := by
  have hA1 : ∀ (f : Nat) (u : List Char), u <:+ host →
      matchToksF f [Tok.plus isDigitC true, Tok.lit ':',
        Tok.plus isNonSpaceC true, Tok.dollar] u = none := by
    intro f u hu
    cases f with
    | zero => rfl
    | succ f2 =>
      rw [matchToksF_plus_eq]
      apply tryAll_none
      intro k hk1 _
      exact noLit_fail hhostCol ((List.drop_suffix k u).trans hu)
  induction digs with
  | nil =>
    intro f t ht
    rcases List.suffix_cons_iff.mp ht with rfl | ht2
    · cases f with
      | zero => rfl
      | succ f2 =>
        rw [matchToksF_lit_cons_eq, if_pos rfl]
        exact hA1 f2 host List.suffix_rfl
    · exact noLit_fail hhostCol ht2
  | cons d ds ih =>
    intro f t ht
    rcases List.suffix_cons_iff.mp ht with rfl | ht2
    · apply lit_head_fail
      have hd : isDigitC d = true := hdigsC d (by simp)
      simp only [List.head?_cons, ne_eq, Option.some_inj]
      intro he
      rw [he] at hd
      exact absurd hd (by decide)
    · exact ih (fun c hc => hdigsC c (by simp [hc])) f t ht2

/-- Leftmost-greedy behaviour of the binding pattern on a well-formed
fragment `<proto><w><addr>:<digs>:<host>`: the four groups are exactly
the four components (the port group is the digit text, unconverted). -/
theorem matchBinding_well_formed
    {proto addr digs host : List Char} {w : Char}
    (hproto : proto ≠ []) (hprotoC : ∀ c ∈ proto, isPySpace c = false)
    (hw : isPySpace w = true)
    (haddr : addr ≠ []) (haddrN : ∀ c ∈ addr, c ≠ '\n')
    (hdigs : digs ≠ []) (hdigsC : ∀ c ∈ digs, isDigitC c = true)
    (hhost : host ≠ []) (hhostC : ∀ c ∈ host, isPySpace c = false)
    (hhostCol : ∀ c ∈ host, c ≠ ':') :
    matchToks bindingToks (proto ++ w :: addr ++ ':' :: digs ++ ':' :: host)
      = some [proto, addr, digs, host] := by
  have hdollarB : matchToksF 2 [Tok.dollar] ([] : List Char) = some [] := rfl
  have hhostM : matchToksF 3 [Tok.plus isNonSpaceC true, Tok.dollar] host
      = some [host] := by
    rw [matchToksF_plus_eq,
      runLen_eq_length (fun c hc => nonsp_true (hhostC c hc))]
    have h3 : matchToksF 2 [Tok.dollar] (host.drop host.length) = some [] := by
      rw [List.drop_length]
      exact hdollarB
    have hres := tryAll_some (c := true) (i := host.length)
      (m := host.length) (length_pos_of_ne_nil hhost) le_rfl h3
      (fun k hk1 hk2 => absurd (Nat.lt_of_lt_of_le hk1 hk2) (Nat.lt_irrefl _))
    rw [hres, List.take_length]
    simp
  have hcolon2 : matchToksF 4 [Tok.lit ':', Tok.plus isNonSpaceC true,
      Tok.dollar] (':' :: host) = some [host] := by
    rw [matchToksF_lit_cons_eq, if_pos rfl]
    exact hhostM
  have hdigsM : matchToksF 5 [Tok.plus isDigitC true, Tok.lit ':',
      Tok.plus isNonSpaceC true, Tok.dollar] (digs ++ ':' :: host)
      = some [digs, host] := by
    rw [matchToksF_plus_eq]
    have hrl : runLen isDigitC (digs ++ ':' :: host) = digs.length := by
      rw [runLen_append_left hdigsC, runLen_cons_false (by decide)]
      omega
    rw [hrl]
    have h3 : matchToksF 4 [Tok.lit ':', Tok.plus isNonSpaceC true, Tok.dollar]
        ((digs ++ ':' :: host).drop digs.length) = some [host] := by
      rw [List.drop_left]
      exact hcolon2
    have hres := tryAll_some (c := true) (i := digs.length)
      (m := digs.length) (length_pos_of_ne_nil hdigs) le_rfl h3
      (fun k hk1 hk2 => absurd (Nat.lt_of_lt_of_le hk1 hk2) (Nat.lt_irrefl _))
    rw [hres, List.take_left]
    simp
  have hcolon1 : matchToksF 6 [Tok.lit ':', Tok.plus isDigitC true,
      Tok.lit ':', Tok.plus isNonSpaceC true, Tok.dollar]
      (':' :: (digs ++ ':' :: host)) = some [digs, host] := by
    rw [matchToksF_lit_cons_eq, if_pos rfl]
    exact hdigsM
  have haddrM : matchToksF 7 [Tok.plus isDotC true, Tok.lit ':',
      Tok.plus isDigitC true, Tok.lit ':', Tok.plus isNonSpaceC true,
      Tok.dollar] (addr ++ ':' :: (digs ++ ':' :: host))
      = some [addr, digs, host] := by
    rw [matchToksF_plus_eq]
    have h3 : matchToksF 6 [Tok.lit ':', Tok.plus isDigitC true, Tok.lit ':',
        Tok.plus isNonSpaceC true, Tok.dollar]
        ((addr ++ ':' :: (digs ++ ':' :: host)).drop addr.length)
        = some [digs, host] := by
      rw [List.drop_left]
      exact hcolon1
    have h4 : ∀ k, addr.length < k →
        k ≤ runLen isDotC (addr ++ ':' :: (digs ++ ':' :: host)) →
        matchToksF 6 [Tok.lit ':', Tok.plus isDigitC true, Tok.lit ':',
          Tok.plus isNonSpaceC true, Tok.dollar]
          ((addr ++ ':' :: (digs ++ ':' :: host)).drop k) = none := by
      intro k hk1 _
      have he : (addr ++ ':' :: (digs ++ ':' :: host)).drop (addr.length + 1)
          = digs ++ ':' :: host := by
        rw [List.drop_append 1]
        rfl
      have hsub := drop_suffix_drop (s := addr ++ ':' :: (digs ++ ':' :: host))
        (k := addr.length + 1) (j := k) (by omega)
      rw [he] at hsub
      exact bindTail_fail hdigsC hhostCol 6 _ hsub
    have hm : addr.length
        ≤ runLen isDotC (addr ++ ':' :: (digs ++ ':' :: host)) := by
      rw [runLen_append_left (fun c hc => dot_true (haddrN c hc))]
      omega
    have hres := tryAll_some (c := true) (i := addr.length)
      (length_pos_of_ne_nil haddr) hm h3 h4
    rw [hres, List.take_left]
    simp
  have honeB : matchToksF 8 [Tok.one isPySpace, Tok.plus isDotC true,
      Tok.lit ':', Tok.plus isDigitC true, Tok.lit ':',
      Tok.plus isNonSpaceC true, Tok.dollar]
      (w :: (addr ++ ':' :: (digs ++ ':' :: host)))
      = some [addr, digs, host] := by
    rw [matchToksF_one_cons_eq, hw, if_pos rfl]
    exact haddrM
  have hassoc : proto ++ w :: addr ++ ':' :: digs ++ ':' :: host
      = proto ++ (w :: (addr ++ ':' :: (digs ++ ':' :: host))) := by
    simp
  rw [hassoc]
  show matchToksF 9 bindingToks
      (proto ++ (w :: (addr ++ ':' :: (digs ++ ':' :: host))))
    = some [proto, addr, digs, host]
  rw [show (9 : Nat) = 8 + 1 from rfl,
    show bindingToks = Tok.plus isNonSpaceC true :: [Tok.one isPySpace,
      Tok.plus isDotC true, Tok.lit ':', Tok.plus isDigitC true, Tok.lit ':',
      Tok.plus isNonSpaceC true, Tok.dollar] from rfl,
    matchToksF_plus_eq]
  have hrl : runLen isNonSpaceC
      (proto ++ (w :: (addr ++ ':' :: (digs ++ ':' :: host))))
      = proto.length := by
    rw [runLen_append_left (fun c hc => nonsp_true (hprotoC c hc)),
      runLen_cons_false (nonsp_false hw)]
    omega
  rw [hrl]
  have h3 : matchToksF 8 [Tok.one isPySpace, Tok.plus isDotC true,
      Tok.lit ':', Tok.plus isDigitC true, Tok.lit ':',
      Tok.plus isNonSpaceC true, Tok.dollar]
      ((proto ++ (w :: (addr ++ ':' :: (digs ++ ':' :: host)))).drop
        proto.length) = some [addr, digs, host] := by
    rw [List.drop_left]
    exact honeB
  have hres := tryAll_some (c := true) (i := proto.length)
    (m := proto.length) (length_pos_of_ne_nil hproto) le_rfl h3
    (fun k hk1 hk2 => absurd (Nat.lt_of_lt_of_le hk1 hk2) (Nat.lt_irrefl _))
  rw [hres, List.take_left]
  simp

/-! ### Failure of the row pattern on rows with an empty brace pair -/

/-- `(.+)\x7d` cannot match inside `\x7b\x7d`: after the opening brace only
the closing brace remains, and the group needs at least one character
before a further `\x7d`. -/
theorem dotBraceClose_fail :
    ∀ f : Nat, matchToksF f [Tok.plus isDotC true, Tok.lit '}',
      Tok.star isPySpace false, Tok.dollar] ['}'] = none := by
  intro f
  cases f with
  | zero => rfl
  | succ f2 =>
    rw [matchToksF_plus_eq]
    apply tryAll_none
    intro k hk1 hk2
    have hr : runLen isDotC ['}'] = 1 := rfl
    rw [hr] at hk2
    have hk : k = 1 := by omega
    subst hk
    exact lit_head_fail (by simp)

theorem emptyBraces_inner_fail {A : List Char} (hA : '{' ∉ A) :
    ∀ (f : Nat) (t : List Char), t <:+ A ++ ['{', '}'] →
      matchToksF f [Tok.lit '{', Tok.plus isDotC true, Tok.lit '}',
        Tok.star isPySpace false, Tok.dollar] t = none := by
  induction A with
  | nil =>
    intro f t ht
    rcases List.suffix_cons_iff.mp ht with rfl | ht2
    · cases f with
      | zero => rfl
      | succ f2 =>
        rw [matchToksF_lit_cons_eq, if_pos rfl]
        exact dotBraceClose_fail f2
    · rcases List.suffix_cons_iff.mp ht2 with rfl | ht3
      · exact lit_head_fail (by simp)
      · rw [List.suffix_nil.mp ht3]
        exact lit_head_fail (by simp)
  | cons a A2 ih =>
    intro f t ht
    rcases List.suffix_cons_iff.mp ht with rfl | ht2
    · apply lit_head_fail
      simp only [List.head?_cons, ne_eq, Option.some_inj]
      intro he
      rw [he] at hA
      exact hA (by simp)
    · exact ih (fun hmem => hA (List.mem_cons_of_mem a hmem)) f t ht2

theorem emptyBraces_sp2_fail {A : List Char} (hA : '{' ∉ A) :
    ∀ (f : Nat) (t : List Char), t <:+ A ++ ['{', '}'] →
      matchToksF f [Tok.plus isPySpace false, Tok.lit '{',
        Tok.plus isDotC true, Tok.lit '}', Tok.star isPySpace false,
        Tok.dollar] t = none := by
  intro f t ht
  cases f with
  | zero => rfl
  | succ f2 =>
    rw [matchToksF_plus_eq]
    apply tryAll_none
    intro k hk1 _
    exact emptyBraces_inner_fail hA f2 _ ((List.drop_suffix k t).trans ht)

theorem emptyBraces_state_fail {A : List Char} (hA : '{' ∉ A) :
    ∀ (f : Nat) (t : List Char), t <:+ A ++ ['{', '}'] →
      matchToksF f [Tok.plus isDotC true, Tok.plus isPySpace false,
        Tok.lit '{', Tok.plus isDotC true, Tok.lit '}',
        Tok.star isPySpace false, Tok.dollar] t = none := by
  intro f t ht
  cases f with
  | zero => rfl
  | succ f2 =>
    rw [matchToksF_plus_eq]
    apply tryAll_none
    intro k hk1 _
    exact emptyBraces_sp2_fail hA f2 _ ((List.drop_suffix k t).trans ht)

theorem emptyBraces_sp1_fail {A : List Char} (hA : '{' ∉ A) :
    ∀ (f : Nat) (t : List Char), t <:+ A ++ ['{', '}'] →
      matchToksF f [Tok.plus isPySpace false, Tok.plus isDotC true,
        Tok.plus isPySpace false, Tok.lit '{', Tok.plus isDotC true,
        Tok.lit '}', Tok.star isPySpace false, Tok.dollar] t = none := by
  intro f t ht
  cases f with
  | zero => rfl
  | succ f2 =>
    rw [matchToksF_plus_eq]
    apply tryAll_none
    intro k hk1 _
    exact emptyBraces_state_fail hA f2 _ ((List.drop_suffix k t).trans ht)

/-- A row whose brace-delimited region is empty is rejected by the row
pattern outright: every backtracking branch needs a non-empty group
between the braces. -/
theorem matchRow_empty_braces {name ws1 mid : List Char}
    (hnameB : '{' ∉ name) (hws1B : '{' ∉ ws1) (hmidB : '{' ∉ mid) :
    matchToks rowToks (name ++ ws1 ++ mid ++ ['{', '}']) = none := by
  have hassoc : name ++ ws1 ++ mid ++ ['{', '}']
      = (name ++ ws1 ++ mid) ++ ['{', '}'] := by
    simp
  rw [hassoc]
  have hA : '{' ∉ name ++ ws1 ++ mid := by
    intro hmem
    rcases List.mem_append.mp hmem with hm1 | hm3
    · rcases List.mem_append.mp hm1 with hm1a | hm1b
      · exact hnameB hm1a
      · exact hws1B hm1b
    · exact hmidB hm3
  show matchToksF 10 rowToks ((name ++ ws1 ++ mid) ++ ['{', '}']) = none
  rw [show (10 : Nat) = 9 + 1 from rfl,
    show rowToks = Tok.plus isNonSpaceC true :: [Tok.plus isPySpace false,
      Tok.plus isDotC true, Tok.plus isPySpace false, Tok.lit '{',
      Tok.plus isDotC true, Tok.lit '}', Tok.star isPySpace false,
      Tok.dollar] from rfl,
    matchToksF_plus_eq]
  apply tryAll_none
  intro k hk1 _
  exact emptyBraces_sp1_fail hA 9 _
    ((List.drop_suffix k _).trans List.suffix_rfl)

/-! ### Splitting a newline-free string is the identity -/

theorem splitCRLF_eq_single {s : List Char} (h : '\n' ∉ s) :
    splitCRLF s = [s] := by
  induction s using splitCRLF.induct with
  | case1 => rfl
  | case2 c => rfl
  | case3 c1 c2 rest hc ih =>
    obtain ⟨rfl, rfl⟩ := hc
    exact absurd (by simp) h
  | case4 c1 c2 rest hc heq ih => exact (splitCRLF_ne_nil _ heq).elim
  | case5 c1 c2 rest hc p ps heq ih =>
    have hsub : '\n' ∉ c2 :: rest := by
      intro hmem
      exact h (List.mem_cons_of_mem c1 hmem)
    have := ih hsub
    rw [heq] at this
    obtain ⟨hp, hps⟩ : p = c2 :: rest ∧ ps = [] := by
      have h1 := (List.cons.injEq _ _ _ _).mp this
      exact ⟨h1.1, h1.2⟩
    subst hp
    subst hps
    rw [splitCRLF_cons_ne hc heq]

theorem parseBindingTry_eq (frag : List Char) :
    parseBindingTry frag
      = match parseBinding frag with
        | some b => Except.ok b
        | none => Except.error PyErr.attributeError := by
  unfold parseBindingTry parseBinding
  cases hm : matchToks bindingToks frag with
  | none => rfl
  | some gs =>
    obtain ⟨g1, g2, g3, g4, rfl, _, _, _, _⟩ := bindingToks_caps hm
    rfl

theorem bindingStepE_eq (acc : List Binding) (frag : List Char) :
    bindingStepE acc frag
      = match parseBinding frag with
        | some b => acc ++ [b]
        | none => acc := by
  unfold bindingStepE
  rw [parseBindingTry_eq]
  cases parseBinding frag with
  | some b => rfl
  | none => rfl

theorem _parse_bindingsE_eq (input : List Char) :
    _parse_bindingsE input = _parse_bindings input := by
  unfold _parse_bindingsE _parse_bindings
  have hgen : ∀ (l : List (List Char)) (acc : List Binding),
      l.foldl bindingStepE acc = acc ++ l.filterMap parseBinding := by
    intro l
    induction l with
    | nil => intro acc; simp
    | cons a t ih =>
      intro acc
      rw [List.foldl_cons, bindingStepE_eq, List.filterMap_cons]
      cases hp : parseBinding a with
      | some b =>
        rw [ih]
        simp
      | none => exact ih acc
  rw [hgen]
  simp

theorem parseRowTry_eq {β : Type} (row : List Char) :
    parseRowTry (β := β) row
      = match extractRow row with
        | some (name, state, bindings) =>
          Except.ok { name := name, state := state,
                      bindings := _parse_bindings bindings, attributes := none }
        | none => Except.error PyErr.attributeError := by
  unfold parseRowTry extractRow
  cases hm : matchToks rowToks row with
  | none => rfl
  | some gs =>
    obtain ⟨g1, g2, g3, rfl, _, _, _⟩ := rowToks_caps hm
    have hb := _parse_bindingsE_eq g3
    show Except.ok (Site.mk g1 g2 (_parse_bindingsE g3) none) = _
    rw [hb]

theorem rowStepE_eq {β : Type} (acc : List (Site β)) (row : List Char) :
    rowStepE acc row
      = match parseRowToSite (β := β) row with
        | some site => acc ++ [site]
        | none => acc := by
  unfold rowStepE parseRowToSite
  by_cases hrow : row = []
  · rw [if_pos hrow, if_pos hrow]
  · rw [if_neg hrow, if_neg hrow, parseRowTry_eq]
    cases hex : extractRow (pyStrip row) with
    | none => rfl
    | some v => rfl

theorem _parse_iis_sitesE_eq (β : Type) (input : List Char) :
    _parse_iis_sitesE (β := β) input
      = Except.ok (_parse_iis_sites (β := β) input) := by
  unfold _parse_iis_sitesE _parse_iis_sites
  congr 1
  have hgen : ∀ (l : List (List Char)) (acc : List (Site β)),
      l.foldl rowStepE acc = acc ++ l.filterMap parseRowToSite := by
    intro l
    induction l with
    | nil => intro acc; simp
    | cons a t ih =>
      intro acc
      rw [List.foldl_cons, rowStepE_eq, List.filterMap_cons]
      cases hp : parseRowToSite (β := β) a with
      | some site =>
        rw [ih]
        simp
      | none => exact ih acc
  rw [hgen]
  simp

theorem compileStepE_eq {β : Type} (site_attributes : OvrMap β)
    (acc : List (Site β)) (site : Site β) :
    compileStepE site_attributes acc site
      = Except.ok (acc ++ [compileStep site_attributes site]) := by
  unfold compileStepE compileStep
  cases hd : dictLookup site.name site_attributes with
  | some v =>
    rw [if_pos (by simp)]
    unfold pySubscript
    rw [hd]
    rfl
  | none =>
    rw [if_neg (by simp)]
    rfl

theorem _compile_sites_objectsE_eq (β : Type) (sites : List (Site β))
    (site_attributes : OvrMap β) :
    _compile_sites_objectsE sites site_attributes
      = Except.ok (_compile_sites_objects sites site_attributes) := by
  unfold _compile_sites_objectsE _compile_sites_objects
  have hgen : ∀ (l : List (Site β)) (acc : List (Site β)),
      l.foldlM (compileStepE site_attributes) acc
        = Except.ok (acc ++ l.map (compileStep site_attributes)) := by
    intro l
    induction l with
    | nil => intro acc; simp [List.foldlM]; rfl
    | cons a t ih =>
      intro acc
      rw [List.foldlM_cons, compileStepE_eq]
      show t.foldlM (compileStepE site_attributes)
          (acc ++ [compileStep site_attributes a]) = _
      rw [ih]
      simp
  rw [hgen]
  simp

/-! ### The claims -/

/-- C1 (counterexample): on the well-formed row
`site1␣␣Started␣␣\x7bx\x7d` the Row Extractor returns the state
`"Started "` with a trailing space — not the trimmed state text — because
the greedy `(.+)` group keeps all but one character of the whitespace run
before the opening brace. -/
theorem c1_counterexample :
    extractRow ("site1  Started  {x}".toList)
      = some ("site1".toList, "Started ".toList, "x".toList)
    ∧ "Started ".toList ≠ pyStrip ("Started ".toList) := by decide

/-- C1 (amended): for every well-formed row
`<name><ws1><mid><wsF><w>\x7b<b>\x7d<ws3>` — `name` a non-empty
whitespace-free token, `ws1` a non-empty whitespace run, `mid` the
trimmed state text (non-empty, newline-free, starting with
non-whitespace), `wsF ++ [w]` the whitespace run before the brace, `b`
the non-empty brace content (no newline, no opening brace), `ws3`
trailing whitespace — the Row Extractor returns exactly
`(name, mid ++ wsF, b)`: the name, the state text extended with all but
the last character of the separating whitespace run (so the state is
trimmed only when that run has exactly one character), and the bindings
text. -/
theorem c1_amended
    {name ws1 mid wsF b ws3 : List Char} {w : Char}
    (hname : name ≠ []) (hnameC : ∀ c ∈ name, isPySpace c = false)
    (hws1 : ws1 ≠ []) (hws1C : ∀ c ∈ ws1, isPySpace c = true)
    (hmid : mid ≠ []) (hmidN : ∀ c ∈ mid, c ≠ '\n')
    (hmidh : ∀ c, mid.head? = some c → isPySpace c = false)
    (hwsFC : ∀ c ∈ wsF, isPySpace c = true) (hwsFN : ∀ c ∈ wsF, c ≠ '\n')
    (hw : isPySpace w = true)
    (hb : b ≠ []) (hbN : ∀ c ∈ b, c ≠ '\n') (hbB : ∀ c ∈ b, c ≠ '{')
    (hws3C : ∀ c ∈ ws3, isPySpace c = true) :
    extractRow (name ++ ws1 ++ mid ++ wsF ++ w :: '{' :: b ++ '}' :: ws3)
      = some (name, mid ++ wsF, b) := by
  unfold extractRow
  rw [matchRow_well_formed hname hnameC hws1 hws1C hmid hmidN hmidh hwsFC
    hwsFN hw hb hbN hbB hws3C]

/-- C1 (witness): the amended statement applied to the concrete row
`site1␣Started␣\x7bx\x7d` (single separating spaces, so the state comes
out exactly trimmed). -/
theorem c1_amended_witness :
    extractRow ("site1".toList ++ " ".toList ++ "Started".toList
        ++ "".toList ++ ' ' :: '{' :: "x".toList ++ '}' :: "".toList)
      = some ("site1".toList, "Started".toList ++ "".toList, "x".toList) :=
  c1_amended (by decide) (by decide) (by decide) (by decide) (by decide)
    (by decide) (by intro c hc; cases hc; decide) (by decide) (by decide)
    (by decide) (by decide) (by decide) (by decide) (by decide)

/-- C2 (counterexample): the well-formed fragment
`http␣*:99999:h.local` is accepted and its port field is the digit text
`"99999"`, whose numeric value 99999 exceeds 65535 — the Binding
Decomposer neither converts the port to an integer nor checks the
0-65535 range. -/
theorem c2_counterexample :
    parseBinding ("http *:99999:h.local".toList)
      = some { type := "http".toList, ip_address := "*".toList,
               port := "99999".toList, host_name := "h.local".toList }
    ∧ digitsVal ("99999".toList) = 99999
    ∧ ¬(digitsVal ("99999".toList) ≤ 65535) := by decide

/-- C2 (amended): for every well-formed fragment
`<proto><w><addr>:<digs>:<host>` — `proto` a non-empty whitespace-free
token, `w` one whitespace character, `addr` non-empty and newline-free,
`digs` a non-empty digit string, `host` non-empty, whitespace-free and
colon-free — the Binding Decomposer returns a Binding whose four fields
are exactly those components; `port` is carried as the matched digit
text, with no integer conversion and no range check. -/
theorem c2_amended
    {proto addr digs host : List Char} {w : Char}
    (hproto : proto ≠ []) (hprotoC : ∀ c ∈ proto, isPySpace c = false)
    (hw : isPySpace w = true)
    (haddr : addr ≠ []) (haddrN : ∀ c ∈ addr, c ≠ '\n')
    (hdigs : digs ≠ []) (hdigsC : ∀ c ∈ digs, isDigitC c = true)
    (hhost : host ≠ []) (hhostC : ∀ c ∈ host, isPySpace c = false)
    (hhostCol : ∀ c ∈ host, c ≠ ':') :
    parseBinding (proto ++ w :: addr ++ ':' :: digs ++ ':' :: host)
      = some { type := proto, ip_address := addr, port := digs,
               host_name := host } := by
  unfold parseBinding
  rw [matchBinding_well_formed hproto hprotoC hw haddr haddrN hdigs hdigsC
    hhost hhostC hhostCol]

/-- C2 (witness): the amended statement applied to the spec's concrete
scenario A fragment `http␣*:80:example.test.local`. -/
theorem c2_amended_witness :
    parseBinding ("http".toList ++ ' ' :: "*".toList ++ ':' :: "80".toList
        ++ ':' :: "example.test.local".toList)
      = some { type := "http".toList, ip_address := "*".toList,
               port := "80".toList, host_name := "example.test.local".toList } :=
  c2_amended (by decide) (by decide) (by decide) (by decide) (by decide)
    (by decide) (by decide) (by decide) (by decide) (by decide)

/-- C3 (code behaviour at the failing input): on the spec's scenario B
row the Listing Parser produces one Site whose bindings list has exactly
ONE element — the ftp binding — because the comma split leaves a leading
space on the fragment `␣https 10.0.0.1:443:secure.local` and the
anchored `^(\S+)` of the binding pattern rejects it.  The spec (and the
evident intent: §4.1 says fragments are trimmed before decomposition)
expects two bindings. -/
theorem c3_code_behavior :
    _parse_iis_sites (β := String)
        ("site2    Stopped    {ftp 10.0.0.1:21:ftp.local, https 10.0.0.1:443:secure.local}".toList)
      = [{ name := "site2".toList, state := "Stopped   ".toList,
           bindings := [{ type := "ftp".toList, ip_address := "10.0.0.1".toList,
                          port := "21".toList, host_name := "ftp.local".toList }],
           attributes := none }]
    ∧ (_parse_iis_sites (β := String)
        ("site2    Stopped    {ftp 10.0.0.1:21:ftp.local, https 10.0.0.1:443:secure.local}".toList)).map
          (fun s => s.bindings.length) ≠ [2] := by decide

/-- C4: for every decoded input text and every site list and override
map, the exception-explicit models of the Listing Parser and of the
Attribute Merger return `ok` with exactly the value of the total models:
every error raised inside the per-row / per-fragment `try` is caught by
its `except: continue`, the dict subscript of the merger is guarded by
the `in` test, and so no error propagates to the caller — both functions
return a (possibly empty) list for every input. -/
theorem c4_no_error_propagation (β : Type) (input : List Char)
    (sites : List (Site β)) (site_attributes : OvrMap β) :
    _parse_iis_sitesE (β := β) input
      = Except.ok (_parse_iis_sites (β := β) input)
    ∧ _compile_sites_objectsE sites site_attributes
      = Except.ok (_compile_sites_objects sites site_attributes) :=
  ⟨_parse_iis_sitesE_eq β input, _compile_sites_objectsE_eq β sites site_attributes⟩

/-- C5: the Listing Parser yields exactly one Site per syntactically
valid row (a row that is not the empty string and whose stripped form
the row pattern matches), in original order: the output length equals
the number of valid rows, parsing is compositional over the CR LF row
separator (so sites appear in row order), and a listing all of whose
rows are invalid yields the empty sequence — in particular one malformed
row interleaved among N well-formed rows contributes nothing, and the N
sites of the well-formed rows survive. -/
theorem c5_one_site_per_valid_row (β : Type) :
    (∀ input : List Char,
      (_parse_iis_sites (β := β) input).length
        = (splitCRLF input).countP validRowB)
    ∧ (∀ a b : List Char,
      _parse_iis_sites (β := β) (a ++ '\r' :: '\n' :: b)
        = _parse_iis_sites (β := β) a ++ _parse_iis_sites (β := β) b)
    ∧ (∀ input : List Char, (∀ r ∈ splitCRLF input, validRowB r = false) →
      _parse_iis_sites (β := β) input = []) := by
  refine ⟨_parse_iis_sites_length β, ?_, ?_⟩
  · intro a b
    unfold _parse_iis_sites
    rw [splitCRLF_append, List.filterMap_append]
  · intro input hall
    have hlen := _parse_iis_sites_length β input
    have hcnt : (splitCRLF input).countP validRowB = 0 := by
      rw [List.countP_eq_zero]
      intro r hr
      simp [hall r hr]
    rw [hcnt] at hlen
    exact List.length_eq_zero.mp hlen

/-- C5 (witness): a listing of two well-formed rows with the spec's
scenario C garbage row between them yields exactly two sites, and the
garbage row alone yields none. -/
theorem c5_witness :
    (_parse_iis_sites (β := String)
      ("site1  Started  {x}\r\ngarbage line with no braces\r\nsite2  Stopped  {y}".toList)).length
      = 2
    ∧ _parse_iis_sites (β := String)
        ("garbage line with no braces".toList) = [] := by
  have h := c5_one_site_per_valid_row String
  constructor
  · rw [h.1]
    decide
  · exact h.2.2 _ (by decide)

/-- C9: the Listing Parser splits the decoded text on the remote
platform's line terminator CR LF, and a row that is empty after
trimming contributes no site — removing all such rows before row
extraction leaves the output unchanged (the code discards exactly-empty
rows before stripping, and a whitespace-only row is rejected by the
anchored row pattern, so either way it yields nothing). -/
theorem c9_empty_rows_discarded (β : Type) :
    (∀ input : List Char,
      _parse_iis_sites (β := β) input
        = ((splitCRLF input).filter (fun r => !(pyStrip r).isEmpty)).filterMap
            parseRowToSite)
    ∧ (∀ row : List Char, pyStrip row = [] →
        parseRowToSite (β := β) row = none) :=
  ⟨_parse_iis_sites_eq_filter β, fun _ h => parseRowToSite_of_strip_nil h⟩

/-- C9 (witness): a whitespace-only row contributes no site. -/
theorem c9_witness :
    parseRowToSite (β := String) ("   ".toList) = none := by
  have h := c9_empty_rows_discarded String
  exact h.2 _ (by decide)

/-- C10: a row whose brace-delimited region is empty —
`<name><ws1><mid>\x7b\x7d` with a non-empty whitespace-free brace-free
name, a whitespace run, and a brace-free state region — is rejected by
the row pattern (the group between the braces needs at least one
character), so the row yields no site at all and a listing consisting of
that row alone parses to the empty sequence. -/
theorem c10_empty_braces (β : Type) (name ws1 mid : List Char)
    (hname : name ≠ []) (hnameC : ∀ c ∈ name, isPySpace c = false)
    (hnameB : '{' ∉ name)
    (hws1C : ∀ c ∈ ws1, isPySpace c = true) (hws1N : '\n' ∉ ws1)
    (hmidB : '{' ∉ mid) (hmidN : '\n' ∉ mid) :
    matchToks rowToks (name ++ ws1 ++ mid ++ ['{', '}']) = none
    ∧ parseRowToSite (β := β) (name ++ ws1 ++ mid ++ ['{', '}']) = none
    ∧ _parse_iis_sites (β := β) (name ++ ws1 ++ mid ++ ['{', '}']) = [] := by
  have hws1B : '{' ∉ ws1 := by
    intro hmem
    have hsp := hws1C '{' hmem
    exact absurd hsp (by decide)
  have hm := matchRow_empty_braces hnameB hws1B hmidB
  obtain ⟨n0, nt, rfl⟩ := List.exists_cons_of_ne_nil hname
  have hrow_ne : (n0 :: nt) ++ ws1 ++ mid ++ ['{', '}'] ≠ [] := by simp
  have hstrip : pyStrip ((n0 :: nt) ++ ws1 ++ mid ++ ['{', '}'])
      = (n0 :: nt) ++ ws1 ++ mid ++ ['{', '}'] := by
    apply pyStrip_eq_self
    · intro c hc
      have hh : ((n0 :: nt) ++ ws1 ++ mid ++ ['{', '}']).head? = some n0 := by
        simp
      rw [hh] at hc
      cases hc
      exact hnameC n0 (by simp)
    · intro c hc
      have hassoc : (n0 :: nt) ++ ws1 ++ mid ++ ['{', '}']
          = ((n0 :: nt) ++ ws1 ++ mid ++ ['{']) ++ ['}'] := by
        simp
      rw [hassoc, List.getLast?_concat] at hc
      cases hc
      decide
  have hpr : parseRowToSite (β := β) ((n0 :: nt) ++ ws1 ++ mid ++ ['{', '}'])
      = none := by
    unfold parseRowToSite
    rw [if_neg hrow_ne, hstrip]
    unfold extractRow
    rw [hm]
  refine ⟨hm, hpr, ?_⟩
  have hnl : '\n' ∉ (n0 :: nt) ++ ws1 ++ mid ++ ['{', '}'] := by
    intro hmem
    have hmem2 : '\n' ∈ (n0 :: nt) ∨ '\n' ∈ ws1 ∨ '\n' ∈ mid
        ∨ '\n' ∈ (['{', '}'] : List Char) := by
      simpa [List.mem_append, or_assoc] using hmem
    rcases hmem2 with h1 | h2 | h3 | h4
    · have hsp := hnameC '\n' h1
      exact absurd hsp (by decide)
    · exact hws1N h2
    · exact hmidN h3
    · simp at h4
  unfold _parse_iis_sites
  rw [splitCRLF_eq_single hnl, List.filterMap_cons, hpr]
  rfl

/-- C10 (witness): the statement applied to the concrete row
`site1␣␣Started\x7b\x7d`. -/
theorem c10_witness :
    _parse_iis_sites (β := String)
      ("site1".toList ++ "  ".toList ++ "Started".toList ++ ['{', '}']) = [] :=
  (c10_empty_braces String ("site1".toList) ("  ".toList) ("Started".toList)
    (by decide) (by decide) (by decide) (by decide) (by decide) (by decide)
    (by decide)).2.2

/-- C6: the Attribute Merger maps the input sequence one-to-one in
order (no filtering, no deduplication): the output has the same length,
and position by position the output site keeps the input's name, state
and bindings, with `attributes` set to the override map's entry for the
site's name when the lookup (exact string equality) succeeds and to the
empty mapping when it fails; an override entry whose key matches no site
leaves the output unchanged. -/
theorem c6_attribute_merger (β : Type) (sites : List (Site β))
    (ovr : OvrMap β) :
    (_compile_sites_objects sites ovr).length = sites.length
    ∧ List.Forall₂ (fun (s r : Site β) =>
        r.name = s.name ∧ r.state = s.state ∧ r.bindings = s.bindings ∧
        (∀ a, dictLookup s.name ovr = some a → r.attributes = some a) ∧
        (dictLookup s.name ovr = none → r.attributes = some []))
        sites (_compile_sites_objects sites ovr)
    ∧ (∀ k v, (∀ s ∈ sites, s.name ≠ k) →
        _compile_sites_objects sites ((k, v) :: ovr)
          = _compile_sites_objects sites ovr) := by
  refine ⟨by simp [_compile_sites_objects], ?_, ?_⟩
  · have hforall : ∀ l : List (Site β),
        List.Forall₂ (fun (s r : Site β) =>
          r.name = s.name ∧ r.state = s.state ∧ r.bindings = s.bindings ∧
          (∀ a, dictLookup s.name ovr = some a → r.attributes = some a) ∧
          (dictLookup s.name ovr = none → r.attributes = some []))
          l (l.map (compileStep ovr)) := by
      intro l
      induction l with
      | nil => exact List.Forall₂.nil
      | cons s t ih =>
        rw [List.map_cons]
        refine List.Forall₂.cons ⟨rfl, rfl, rfl, ?_, ?_⟩ ih
        · intro a ha
          unfold compileStep
          rw [ha]
        · intro hn
          unfold compileStep
          rw [hn]
    exact hforall sites
  · intro k v hk
    unfold _compile_sites_objects
    apply List.map_congr_left
    intro s hs
    unfold compileStep
    have hd : dictLookup s.name ((k, v) :: ovr) = dictLookup s.name ovr := by
      show (if s.name = k then some v else dictLookup s.name ovr)
        = dictLookup s.name ovr
      rw [if_neg (hk s hs)]
    rw [hd]

/-- C6 (witness): an override entry (`zz`) matching no site is silently
unused on a one-site list. -/
theorem c6_witness :
    _compile_sites_objects (β := String)
        [{ name := "site1".toList, state := "Started".toList, bindings := [],
           attributes := none }]
        (("zz".toList, []) :: [("site1".toList, [("notes".toList, "critical")])])
      = _compile_sites_objects (β := String)
        [{ name := "site1".toList, state := "Started".toList, bindings := [],
           attributes := none }]
        [("site1".toList, [("notes".toList, "critical")])] :=
  (c6_attribute_merger String _ _).2.2 ("zz".toList) [] (by decide)

/-- C7 (counterexample): the Attribute Merger does not leave its input
site records unchanged — the Python loop executes
`site['attributes'] = attributes` on each dict of the caller's list, so
after the call the caller's records differ from what was passed in
(here: `attributes` went from absent to the empty mapping). -/
theorem c7_counterexample :
    (compileSitesWithState (β := String)
        [{ name := "a".toList, state := "s".toList, bindings := [],
           attributes := none }] []).1.1
      ≠ [{ name := "a".toList, state := "s".toList, bindings := [],
           attributes := none }] := by decide

/-- C7 (amended): the parsing components are pure and the Attribute
Merger never mutates the override map (the final override-map state
equals the initial one), but the merger mutates its input site records
in place: after the call the caller's records are exactly the returned
objects (the same dicts), and whenever some input record lacked the
`attributes` key the caller's list has genuinely changed. -/
theorem c7_amended (β : Type) (sites : List (Site β)) (ovr : OvrMap β) :
    (compileSitesWithState sites ovr).1.2 = ovr
    ∧ (compileSitesWithState sites ovr).1.1 = (compileSitesWithState sites ovr).2
    ∧ (compileSitesWithState sites ovr).2 = _compile_sites_objects sites ovr
    ∧ (∀ s ∈ sites, s.attributes = none →
        (compileSitesWithState sites ovr).1.1 ≠ sites) := by
  refine ⟨rfl, rfl, rfl, ?_⟩
  intro s hs hnone heq
  have heq2 : sites.map (compileStep ovr) = sites := heq
  have h1 : (none : Option (List (List Char × β)))
      ∈ sites.map (fun x => x.attributes) :=
    List.mem_map.mpr ⟨s, hs, hnone⟩
  have h2 : sites.map (fun x => x.attributes)
      = (sites.map (compileStep ovr)).map (fun x => x.attributes) := by
    rw [heq2]
  rw [h2, List.map_map] at h1
  obtain ⟨x, _, hxeq⟩ := List.mem_map.mp h1
  have : (compileStep ovr x).attributes = none := hxeq
  unfold compileStep at this
  simp at this

/-- C7 (witness): the amended statement applied to a one-site list and
the empty override map. -/
theorem c7_witness :
    (compileSitesWithState (β := String)
        [{ name := "b".toList, state := "s".toList, bindings := [],
           attributes := none }] []).1.1
      ≠ [{ name := "b".toList, state := "s".toList, bindings := [],
           attributes := none }] :=
  (c7_amended String
      [{ name := "b".toList, state := "s".toList, bindings := [],
         attributes := none }] []).2.2.2
    { name := "b".toList, state := "s".toList, bindings := [],
      attributes := none }
    (by decide) (by decide)

/-- C8 (counterexample): names are not unique within the returned
sequence — two identical well-formed rows yield two sites with the same
name (the parser neither deduplicates nor rejects duplicates). -/
theorem c8_counterexample :
    (_parse_iis_sites (β := String) ("a b {x}\r\na b {x}".toList)).map
        (fun s => s.name)
      = ["a".toList, "a".toList]
    ∧ ¬ ((_parse_iis_sites (β := String) ("a b {x}\r\na b {x}".toList)).map
        (fun s => s.name)).Nodup := by decide

/-- C8 (amended): every Site in the Listing Parser's output has a
non-empty name containing no whitespace (it is captured by the anchored
`(\S+)` group); names need NOT be unique within the returned sequence. -/
theorem c8_amended (β : Type) (input : List Char) :
    ∀ site ∈ _parse_iis_sites (β := β) input,
      site.name ≠ [] ∧ ∀ c ∈ site.name, isPySpace c = false := by
  intro site hmem
  unfold _parse_iis_sites at hmem
  obtain ⟨row, _, hps⟩ := List.mem_filterMap.mp hmem
  unfold parseRowToSite at hps
  by_cases hrow0 : row = []
  · rw [if_pos hrow0] at hps
    exact absurd hps (by simp)
  · rw [if_neg hrow0] at hps
    cases hex : extractRow (pyStrip row) with
    | none =>
      rw [hex] at hps
      exact absurd hps (by simp)
    | some v =>
      obtain ⟨n, st, bnd⟩ := v
      rw [hex] at hps
      have hsite := Option.some_inj.mp hps
      unfold extractRow at hex
      cases hm : matchToks rowToks (pyStrip row) with
      | none =>
        rw [hm] at hex
        exact absurd hex (by simp)
      | some gs =>
        obtain ⟨g1, g2, g3, rfl, hg1, _, _⟩ := rowToks_caps hm
        rw [hm] at hex
        have htriple : (g1, g2, g3) = (n, st, bnd) := Option.some_inj.mp hex
        have hg1n : g1 = n := congrArg Prod.fst htriple
        subst hsite
        constructor
        · show n ≠ []
          rw [← hg1n]
          exact hg1.1
        · show ∀ c ∈ n, isPySpace c = false
          intro c hc
          rw [← hg1n] at hc
          have hns := hg1.2 c hc
          simpa [isNonSpaceC] using hns

/-- C8 (witness): the amended statement applied to the output of the
one-row listing `a␣b␣\x7bx\x7d`. -/
theorem c8_witness :
    "a".toList ≠ [] ∧ ∀ c ∈ "a".toList, isPySpace c = false := by
  have h := c8_amended String ("a b {x}".toList)
  have hmem : (Site.mk "a".toList "b".toList [] none : Site String)
      ∈ _parse_iis_sites (β := String) ("a b {x}".toList) := by decide
  exact h _ hmem
